import Mathlib

/-!
Verification of the price aggregation and ranking engine of the
kosher-prices repository (the client-side logic of `src/app/page.tsx`).

The engine consumes a feed of approved price submissions (newest-first),
indexes the latest regular/sale submission per (variant, store) pair,
resolves a display price per cell under a mode (best / regular / sale),
checks sale validity against a calendar-day boundary, ranks stores per
variant by display price, and filters rows by a search query.

Modelling decisions:
- Money is modelled in `ℚ`: the source stores integer cents and divides by
  100 for display; `ℚ` realises the spec's cent-exactness contract.
- Timestamps (`created_at`) are milliseconds since epoch as `ℕ`.
  The source truncates a timestamp to its local calendar day with
  `setHours(0,0,0,0)`; we model this as flooring to a multiple of
  `msPerDay`.  A `sale_end_date` is a pure date, parsed by the source at
  the start of its day (`"T00:00:00"`); we model it as a day index `d`,
  whose day start is `d * msPerDay`.
- The JS index is a nested record `map[variantId][storeId]`; a missing
  entry and an empty entry behave identically downstream (`!slot` returns
  the empty cell, and an empty slot also resolves to the empty cell), so
  the index is modelled as a total function from the pair of keys to a
  `Slot`, folding exactly the loop body of the source over the feed.
- `Array.prototype.sort` with comparator `a.price - b.price` is a stable
  ascending sort (ES2019); `sortByPrice` is a stable insertion sort, the
  unique list realising that specification.
- `variant.size_value` is a number interpolated into a template literal;
  the search logic only ever sees its rendered string, so it is modelled
  as the rendered decimal string.
-/

namespace KosherPrices

/-- Display mode toggle of the browsing view (`type Mode`). -/
inductive Mode
  | best
  | regular
  | sale
deriving DecidableEq

/-- `price_type` of a submission (`"regular" | "sale"`). -/
inductive PriceType
  | regular
  | sale
deriving DecidableEq

/-- A store row (`type Store`); `sort_order` drives the external query's
ordering of the store list and is otherwise unused by the engine. -/
structure Store where
  id : String
  name : String
  sort_order : Int
deriving DecidableEq

/-- A product variant (`type Variant`); `size_value` is modelled as its
rendered decimal string (the source interpolates the number into a
template literal before any use relevant here). -/
structure Variant where
  id : String
  product_name : String
  brand_name : String
  size_value : Option String
  size_unit : Option String
  flavour : Option String
deriving DecidableEq

/-- An approved price submission (`type Submission`); `sale_end_date` is
the day index of the sale's last valid day, `created_at` a millisecond
timestamp. -/
structure Submission where
  id : String
  store_id : String
  variant_id : String
  price_cents : ℕ
  price_type : PriceType
  sale_end_date : Option ℕ
  created_at : ℕ
deriving DecidableEq

/-- The per-(variant, store) pair of latest submissions
(`{ regular?: Submission; sale?: Submission }`). -/
structure Slot where
  regular : Option Submission := none
  sale : Option Submission := none
deriving DecidableEq

/-- One step of the indexing loop body: fill the slot of the submission's
type only when still empty (`if (s.price_type === "regular" && !slot.regular)
slot.regular = s; if (s.price_type === "sale" && !slot.sale) slot.sale = s` —
the two guards are mutually exclusive on `price_type`). -/
def stepSlot (slot : Slot) (s : Submission) : Slot :=
  match s.price_type with
  | PriceType.regular => if slot.regular = none then ⟨some s, slot.sale⟩ else slot
  | PriceType.sale => if slot.sale = none then ⟨slot.regular, some s⟩ else slot

/-- The indexing loop of `latest` restricted to one (variant, store) key,
starting from a given slot: submissions with an empty `variant_id` are
skipped (`if (!s.variant_id) continue`), and only submissions keyed to
this pair touch its slot. -/
def latestFrom (v st : String) (slot : Slot) (subs : List Submission) : Slot :=
  subs.foldl
    (fun sl s =>
      if s.variant_id ≠ "" ∧ s.variant_id = v ∧ s.store_id = st then stepSlot sl s else sl)
    slot

/-- The feed index `latest`, read at key (variant, store): the JS nested
record lookup, with a missing entry identified with the empty slot (the
two are indistinguishable to every consumer). -/
def latest (subs : List Submission) (v st : String) : Slot :=
  latestFrom v st ⟨none, none⟩ subs

/-- Boolean key predicate: the submission is well-formed and keyed to the
given (variant, store) pair with the given price type. -/
def keyMatch (v st : String) (t : PriceType) (s : Submission) : Bool :=
  decide (s.variant_id ≠ "" ∧ s.variant_id = v ∧ s.store_id = st ∧ s.price_type = t)

/-- Milliseconds per calendar day. -/
def msPerDay : ℕ := 86400000

/-- Truncate a millisecond timestamp to the start of its calendar day
(`setHours(0,0,0,0)`). -/
def dayStart (t : ℕ) : ℕ := msPerDay * (t / msPerDay)

/-- `isSaleStillValid`: absent sale is invalid; a null end date means
perpetually active; otherwise the start of the end-date day must be
`>=` the start of the as-of day (`end >= today`). -/
def isSaleStillValid (asOf : ℕ) (sub? : Option Submission) : Bool :=
  match sub? with
  | none => false
  | some s =>
    match s.sale_end_date with
    | none => true
    | some d => decide (dayStart asOf ≤ d * msPerDay)

/-- A non-empty display cell (`{ price, isSale, created_at }`). -/
structure Cell where
  price : ℚ
  isSale : Bool
  created_at : ℕ
deriving DecidableEq

/-- Cents to displayed decimal price (`price_cents / 100`). -/
def centsToPrice (c : ℕ) : ℚ := (c : ℚ) / 100

/-- The cell built from a regular submission. -/
def regularCell (r : Submission) : Cell := ⟨centsToPrice r.price_cents, false, r.created_at⟩

/-- The cell built from a sale submission. -/
def saleCell (s : Submission) : Cell := ⟨centsToPrice s.price_cents, true, s.created_at⟩

/-- The body of `getDisplayPrice` after the slot lookup: resolve a slot
under a mode and an as-of time; the source's single-use local `saleOk`
is inlined.  `none` is the source's empty object. -/
def resolveSlot (slot : Slot) (mode : Mode) (asOf : ℕ) : Option Cell :=
  match mode with
  | Mode.regular => slot.regular.map regularCell
  | Mode.sale =>
    match slot.sale with
    | some s => if isSaleStillValid asOf slot.sale then some (saleCell s) else none
    | none => none
  | Mode.best =>
    match slot.sale, slot.regular with
    | some s, some r =>
      if isSaleStillValid asOf slot.sale then
        if centsToPrice s.price_cents ≤ centsToPrice r.price_cents then some (saleCell s)
        else some (regularCell r)
      else some (regularCell r)
    | some s, none => if isSaleStillValid asOf slot.sale then some (saleCell s) else none
    | none, some r => some (regularCell r)
    | none, none => none

/-- `getDisplayPrice(variantId, storeId)`: look up the pair's slot in the
index and resolve it (a missing slot is the empty slot, and both return
the empty result). -/
def getDisplayPrice (subs : List Submission) (mode : Mode) (asOf : ℕ)
    (variantId storeId : String) : Option Cell :=
  resolveSlot (latest subs variantId storeId) mode asOf

/-- The `vals` list of `getCheapestInfo`: for each store in order, its
display price for the variant when non-empty. -/
def priceVals (subs : List Submission) (mode : Mode) (asOf : ℕ)
    (stores : List Store) (variantId : String) : List (String × ℚ) :=
  stores.filterMap
    (fun st => (getDisplayPrice subs mode asOf variantId st.id).map (fun c => (st.id, c.price)))

/-- Stable ascending insertion by price: the new element goes before the
first element whose price is not smaller, so earlier elements win ties. -/
def insertByPrice (x : String × ℚ) : List (String × ℚ) → List (String × ℚ)
  | [] => [x]
  | y :: ys => if y.2 < x.2 then y :: insertByPrice x ys else x :: y :: ys

/-- Stable ascending sort by price, modelling
`vals.sort((a, b) => a.price - b.price)` (a stable sort since ES2019). -/
def sortByPrice : List (String × ℚ) → List (String × ℚ)
  | [] => []
  | x :: xs => insertByPrice x (sortByPrice xs)

/-- `Math.round(x * 10) / 10`: round to one decimal, halves toward
positive infinity (equivalently away from zero on the nonnegative inputs
that occur here). -/
def round1 (x : ℚ) : ℚ := ((⌊x * 10 + 1 / 2⌋ : ℤ) : ℚ) / 10

/-- Result of `getCheapestInfo`. -/
structure RankResult where
  cheapestStoreId : Option String
  savePct : Option ℚ
deriving DecidableEq

/-- `getCheapestInfo(variantId)`: collect the non-empty display prices per
store, sort ascending by price, and read the cheapest and the runner-up. -/
def getCheapestInfo (subs : List Submission) (mode : Mode) (asOf : ℕ)
    (stores : List Store) (variantId : String) : RankResult :=
  match sortByPrice (priceVals subs mode asOf stores variantId) with
  | [] => ⟨none, none⟩
  | [c] => ⟨some c.1, none⟩
  | c :: s2 :: _ => ⟨some c.1, some (round1 ((s2.2 - c.2) / s2.2 * 100))⟩

/-- `hasAnyPrice(variantId)`: some store has a non-empty display price. -/
def hasAnyPrice (subs : List Submission) (mode : Mode) (asOf : ℕ)
    (stores : List Store) (variantId : String) : Bool :=
  stores.any (fun st => (getDisplayPrice subs mode asOf variantId st.id).isSome)

/-- `toLowerCase()`, modelled character-wise over the string's data. -/
def lowerString (s : String) : String := ⟨s.data.map Char.toLower⟩

/-- `trim()`: strip whitespace from both ends. -/
def trimString (s : String) : String :=
  ⟨(((s.data.dropWhile Char.isWhitespace).reverse.dropWhile Char.isWhitespace).reverse)⟩

/-- The search label of a variant:
`` `${brand} ${product} ${size_value ?? ""}${size_unit ?? ""} ${flavour ?? ""}`.toLowerCase() ``. -/
def variantSearchLabel (v : Variant) : String :=
  lowerString (v.brand_name ++ " " ++ v.product_name ++ " " ++ v.size_value.getD "" ++
    v.size_unit.getD "" ++ " " ++ v.flavour.getD "")

/-- Executable substring test (`String.prototype.includes`): the needle is
a prefix of some suffix of the haystack. -/
def strContains (hay needle : String) : Bool :=
  (List.range (hay.data.length + 1)).any (fun i => needle.data.isPrefixOf (hay.data.drop i))

/-- Whether one variant passes the search filter for a query: the
filter's early return on an empty normalized query, else the substring
test of `label.includes(q)`. -/
def matchesQuery (query : String) (v : Variant) : Bool :=
  if lowerString (trimString query) = "" then true
  else strContains (variantSearchLabel v) (lowerString (trimString query))

/-- `filteredVariants`: all variants on an empty normalized query, else
those whose label contains the normalized query. -/
def filteredVariants (query : String) (variants : List Variant) : List Variant :=
  if lowerString (trimString query) = "" then variants
  else variants.filter (fun v => strContains (variantSearchLabel v) (lowerString (trimString query)))

/-! ### Indexing lemmas -/

/-- Unfolding the indexing fold one submission at a time. -/
lemma latestFrom_cons (v st : String) (slot : Slot) (s : Submission) (rest : List Submission) :
    latestFrom v st slot (s :: rest) =
      latestFrom v st
        (if s.variant_id ≠ "" ∧ s.variant_id = v ∧ s.store_id = st then stepSlot slot s else slot)
        rest := rfl

/-- A filled regular slot is never overwritten by one step. -/
lemma stepSlot_regular_of_some (slot : Slot) (s r : Submission)
    (h : slot.regular = some r) : (stepSlot slot s).regular = some r := by
  unfold stepSlot
  split <;> split <;> simp_all

/-- A filled sale slot is never overwritten by one step. -/
lemma stepSlot_sale_of_some (slot : Slot) (s r : Submission)
    (h : slot.sale = some r) : (stepSlot slot s).sale = some r := by
  unfold stepSlot
  split <;> split <;> simp_all

/-- A filled regular slot survives the whole indexing pass. -/
lemma latestFrom_regular_of_some (v st : String) (r : Submission) :
    ∀ (subs : List Submission) (slot : Slot), slot.regular = some r →
      (latestFrom v st slot subs).regular = some r := by
  intro subs
  induction subs with
  | nil => intro slot h; exact h
  | cons s rest ih =>
    intro slot h
    rw [latestFrom_cons]
    split
    · exact ih _ (stepSlot_regular_of_some _ _ _ h)
    · exact ih _ h

/-- A filled sale slot survives the whole indexing pass. -/
lemma latestFrom_sale_of_some (v st : String) (r : Submission) :
    ∀ (subs : List Submission) (slot : Slot), slot.sale = some r →
      (latestFrom v st slot subs).sale = some r := by
  intro subs
  induction subs with
  | nil => intro slot h; exact h
  | cons s rest ih =>
    intro slot h
    rw [latestFrom_cons]
    split
    · exact ih _ (stepSlot_sale_of_some _ _ _ h)
    · exact ih _ h

/-- Starting from an empty regular slot, the pass selects exactly the
first matching regular submission of the feed. -/
lemma latestFrom_regular_none (v st : String) :
    ∀ (subs : List Submission) (slot : Slot), slot.regular = none →
      (latestFrom v st slot subs).regular =
        (subs.filter (keyMatch v st PriceType.regular)).head? := by
  intro subs
  induction subs with
  | nil => intro slot h; exact h
  | cons s rest ih =>
    intro slot h
    rw [latestFrom_cons]
    by_cases hg : s.variant_id ≠ "" ∧ s.variant_id = v ∧ s.store_id = st
    · rw [if_pos hg]
      cases hp : s.price_type with
      | regular =>
        have hstep : (stepSlot slot s).regular = some s := by
          unfold stepSlot; split <;> split <;> simp_all
        have hk : keyMatch v st PriceType.regular s = true := by
          unfold keyMatch
          rw [decide_eq_true_eq]
          exact ⟨hg.1, hg.2.1, hg.2.2, hp⟩
        rw [latestFrom_regular_of_some v st s rest _ hstep]
        simp [List.filter_cons, hk]
      | sale =>
        have hstep : (stepSlot slot s).regular = none := by
          unfold stepSlot; split <;> split <;> simp_all
        have hk : keyMatch v st PriceType.regular s = false := by
          unfold keyMatch
          rw [decide_eq_false_iff_not]
          rintro ⟨-, -, -, h4⟩
          rw [hp] at h4
          exact PriceType.noConfusion h4
        rw [ih _ hstep]
        simp [List.filter_cons, hk]
    · rw [if_neg hg]
      have hk : keyMatch v st PriceType.regular s = false := by
        unfold keyMatch
        rw [decide_eq_false_iff_not]
        rintro ⟨h1, h2, h3, -⟩
        exact hg ⟨h1, h2, h3⟩
      rw [ih _ h]
      simp [List.filter_cons, hk]

/-- Starting from an empty sale slot, the pass selects exactly the first
matching sale submission of the feed. -/
lemma latestFrom_sale_none (v st : String) :
    ∀ (subs : List Submission) (slot : Slot), slot.sale = none →
      (latestFrom v st slot subs).sale =
        (subs.filter (keyMatch v st PriceType.sale)).head? := by
  intro subs
  induction subs with
  | nil => intro slot h; exact h
  | cons s rest ih =>
    intro slot h
    rw [latestFrom_cons]
    by_cases hg : s.variant_id ≠ "" ∧ s.variant_id = v ∧ s.store_id = st
    · rw [if_pos hg]
      cases hp : s.price_type with
      | sale =>
        have hstep : (stepSlot slot s).sale = some s := by
          unfold stepSlot; split <;> split <;> simp_all
        have hk : keyMatch v st PriceType.sale s = true := by
          unfold keyMatch
          rw [decide_eq_true_eq]
          exact ⟨hg.1, hg.2.1, hg.2.2, hp⟩
        rw [latestFrom_sale_of_some v st s rest _ hstep]
        simp [List.filter_cons, hk]
      | regular =>
        have hstep : (stepSlot slot s).sale = none := by
          unfold stepSlot; split <;> split <;> simp_all
        have hk : keyMatch v st PriceType.sale s = false := by
          unfold keyMatch
          rw [decide_eq_false_iff_not]
          rintro ⟨-, -, -, h4⟩
          rw [hp] at h4
          exact PriceType.noConfusion h4
        rw [ih _ hstep]
        simp [List.filter_cons, hk]
    · rw [if_neg hg]
      have hk : keyMatch v st PriceType.sale s = false := by
        unfold keyMatch
        rw [decide_eq_false_iff_not]
        rintro ⟨h1, h2, h3, -⟩
        exact hg ⟨h1, h2, h3⟩
      rw [ih _ h]
      simp [List.filter_cons, hk]

/-- The regular slot of the index is the first matching regular
submission of the feed. -/
lemma latest_regular_eq (subs : List Submission) (v st : String) :
    (latest subs v st).regular = (subs.filter (keyMatch v st PriceType.regular)).head? :=
  latestFrom_regular_none v st subs ⟨none, none⟩ rfl

/-- The sale slot of the index is the first matching sale submission of
the feed. -/
lemma latest_sale_eq (subs : List Submission) (v st : String) :
    (latest subs v st).sale = (subs.filter (keyMatch v st PriceType.sale)).head? :=
  latestFrom_sale_none v st subs ⟨none, none⟩ rfl

/-- In a newest-first list, the head of any filtered sublist dominates
every element of that sublist by `created_at`. -/
lemma head_filter_created_at_max (subs : List Submission)
    (hsorted : subs.Pairwise (fun a b => b.created_at ≤ a.created_at))
    (p : Submission → Bool) (r : Submission)
    (h : (subs.filter p).head? = some r) :
    ∀ s ∈ subs.filter p, s.created_at ≤ r.created_at := by
  have hpw : (subs.filter p).Pairwise (fun a b => b.created_at ≤ a.created_at) :=
    hsorted.sublist (List.filter_sublist subs)
  cases hf : subs.filter p with
  | nil => rw [hf] at h; exact absurd h (by simp)
  | cons a t =>
    rw [hf] at h hpw
    rw [List.head?_cons] at h
    cases h
    rw [List.pairwise_cons] at hpw
    intro s hs
    rcases List.mem_cons.mp hs with hs | hs
    · exact hs ▸ le_refl _
    · exact hpw.1 s hs

/-- C1.  Latest-wins indexing: over a feed ordered newest-first by
`created_at`, the index holds for each (variant, store) pair the first
regular-type and first sale-type submission seen for that pair, and each
filled slot dominates every same-type submission for the pair by
`created_at` (so it is one of maximum `created_at`). -/
theorem c1_latest_wins (subs : List Submission) (v st : String)
    (hsorted : subs.Pairwise (fun a b => b.created_at ≤ a.created_at)) :
    (latest subs v st).regular = (subs.filter (keyMatch v st PriceType.regular)).head? ∧
    (latest subs v st).sale = (subs.filter (keyMatch v st PriceType.sale)).head? ∧
    (∀ r, (latest subs v st).regular = some r →
      ∀ s ∈ subs.filter (keyMatch v st PriceType.regular), s.created_at ≤ r.created_at) ∧
    (∀ r, (latest subs v st).sale = some r →
      ∀ s ∈ subs.filter (keyMatch v st PriceType.sale), s.created_at ≤ r.created_at) := by
  refine ⟨latest_regular_eq subs v st, latest_sale_eq subs v st, ?_, ?_⟩
  · intro r hr
    exact head_filter_created_at_max subs hsorted _ r ((latest_regular_eq subs v st).symm.trans hr)
  · intro r hr
    exact head_filter_created_at_max subs hsorted _ r ((latest_sale_eq subs v st).symm.trans hr)

/-! ### Sale validity (C2) and the display-price resolver (C3, C4) -/

/-- C2.  Sale validity boundary: an absent submission is never active; a
null `sale_end_date` is always active; otherwise the sale is active iff
the start of the end-date day is at or after the start of the as-of day,
so a sale ending on day `d` is active throughout day `d` and inactive on
day `d + 1`. -/
theorem c2_sale_validity (asOf : ℕ) (s : Submission) :
    isSaleStillValid asOf none = false ∧
    (s.sale_end_date = none → isSaleStillValid asOf (some s) = true) ∧
    (∀ d, s.sale_end_date = some d →
      ((isSaleStillValid asOf (some s) = true ↔ dayStart asOf ≤ dayStart (d * msPerDay)) ∧
       (asOf / msPerDay = d → isSaleStillValid asOf (some s) = true) ∧
       (asOf / msPerDay = d + 1 → isSaleStillValid asOf (some s) = false))) := by
  refine ⟨rfl, ?_, ?_⟩
  · intro h
    simp [isSaleStillValid, h]
  · intro d hd
    have hdd : dayStart (d * msPerDay) = d * msPerDay := by
      unfold dayStart
      rw [Nat.mul_div_cancel d (by norm_num [msPerDay])]
      exact Nat.mul_comm _ _
    refine ⟨?_, ?_, ?_⟩
    · rw [hdd]
      simp [isSaleStillValid, hd]
    · intro h
      simp only [isSaleStillValid, hd, dayStart, h, decide_eq_true_eq]
      exact Nat.le_of_eq (Nat.mul_comm _ _)
    · intro h
      simp only [isSaleStillValid, hd, dayStart, decide_eq_false_iff_not]
      rw [h]
      simp only [msPerDay]
      omega

/-- C3.  Best-mode selection: with both a regular price and a
still-active sale price present, the resolver picks the sale exactly when
`sale <= regular` (ties favor the sale) and the regular otherwise; with
only one of the two available that one is returned, and with neither the
result is empty. -/
theorem c3_best_mode (slot : Slot) (asOf : ℕ) :
    (∀ r sl, slot.regular = some r → slot.sale = some sl →
      isSaleStillValid asOf slot.sale = true →
      resolveSlot slot Mode.best asOf =
        if centsToPrice sl.price_cents ≤ centsToPrice r.price_cents
        then some (saleCell sl) else some (regularCell r)) ∧
    (∀ sl, slot.regular = none → slot.sale = some sl →
      isSaleStillValid asOf slot.sale = true →
      resolveSlot slot Mode.best asOf = some (saleCell sl)) ∧
    (∀ r, slot.regular = some r → isSaleStillValid asOf slot.sale = false →
      resolveSlot slot Mode.best asOf = some (regularCell r)) ∧
    (slot.regular = none → isSaleStillValid asOf slot.sale = false →
      resolveSlot slot Mode.best asOf = none) := by
  refine ⟨?_, ?_, ?_, ?_⟩
  · intro r sl hr hs hok
    simp [resolveSlot, hr, hs, hs ▸ hok]
  · intro sl hr hs hok
    simp [resolveSlot, hr, hs, hs ▸ hok]
  · intro r hr hok
    cases hs : slot.sale with
    | none => simp [resolveSlot, hr, hs]
    | some sl => simp [resolveSlot, hr, hs, hs ▸ hok]
  · intro hr hok
    cases hs : slot.sale with
    | none => simp [resolveSlot, hr, hs]
    | some sl => simp [resolveSlot, hr, hs, hs ▸ hok]

/-- C4.  Mode independence: mode `regular` returns exactly the regular
slot's cell (ignoring sales, `isSale` always false); mode `sale` returns
the sale slot's cell only when the sale is still active and the empty
result otherwise (`isSale` always true, never a regular price). -/
theorem c4_mode_independence (slot : Slot) (asOf : ℕ) :
    resolveSlot slot Mode.regular asOf = slot.regular.map regularCell ∧
    (∀ c, resolveSlot slot Mode.regular asOf = some c → c.isSale = false) ∧
    (∀ sl, slot.sale = some sl → isSaleStillValid asOf slot.sale = true →
      resolveSlot slot Mode.sale asOf = some (saleCell sl)) ∧
    (isSaleStillValid asOf slot.sale = false →
      resolveSlot slot Mode.sale asOf = none) ∧
    (∀ c, resolveSlot slot Mode.sale asOf = some c → c.isSale = true) := by
  refine ⟨rfl, ?_, ?_, ?_, ?_⟩
  · intro c hc
    cases hr : slot.regular with
    | none => rw [resolveSlot] at hc; simp [hr] at hc
    | some r =>
      rw [resolveSlot] at hc
      simp only [hr, Option.map_some'] at hc
      cases hc
      rfl
  · intro sl hs hok
    simp [resolveSlot, hs, hs ▸ hok]
  · intro hok
    cases hs : slot.sale with
    | none => simp [resolveSlot, hs]
    | some sl => simp [resolveSlot, hs, hs ▸ hok]
  · intro c hc
    cases hs : slot.sale with
    | none => rw [resolveSlot] at hc; simp [hs] at hc
    | some sl =>
      rw [resolveSlot] at hc
      simp only [hs] at hc
      by_cases hok : isSaleStillValid asOf (some sl) = true
      · rw [if_pos hok] at hc
        cases hc
        rfl
      · rw [if_neg hok] at hc
        exact Option.noConfusion hc

/-! ### Sorting and ranking lemmas (C5, C6, C7, C10) -/

/-- Inserting adds one element to the length. -/
lemma insertByPrice_length (x : String × ℚ) (l : List (String × ℚ)) :
    (insertByPrice x l).length = l.length + 1 := by
  induction l with
  | nil => rfl
  | cons y ys ih =>
    unfold insertByPrice
    split
    · simp [ih]
    · simp

/-- The sort preserves length. -/
lemma sortByPrice_length (l : List (String × ℚ)) :
    (sortByPrice l).length = l.length := by
  induction l with
  | nil => rfl
  | cons x xs ih => simp [sortByPrice, insertByPrice_length, ih]

/-- Membership in an insertion. -/
lemma mem_insertByPrice (x y : String × ℚ) (l : List (String × ℚ)) :
    y ∈ insertByPrice x l ↔ y = x ∨ y ∈ l := by
  induction l with
  | nil => simp [insertByPrice]
  | cons z zs ih =>
    unfold insertByPrice
    split
    · simp only [List.mem_cons, ih]
      tauto
    · simp only [List.mem_cons]

/-- Membership is preserved by the sort. -/
lemma mem_sortByPrice (y : String × ℚ) (l : List (String × ℚ)) :
    y ∈ sortByPrice l ↔ y ∈ l := by
  induction l with
  | nil => simp [sortByPrice]
  | cons x xs ih => simp [sortByPrice, mem_insertByPrice, ih]

/-- The head of the stable sort is an element of minimal price, and among
the elements of that price it is the FIRST of the input list (stability of
the tie-break). -/
lemma sortByPrice_head_spec :
    ∀ (l : List (String × ℚ)) (c : String × ℚ),
      (sortByPrice l).head? = some c →
      c ∈ l ∧ (∀ p ∈ l, c.2 ≤ p.2) ∧ l.find? (fun p => decide (p.2 = c.2)) = some c := by
  intro l
  induction l with
  | nil => intro c hc; exact absurd hc (by simp [sortByPrice])
  | cons x xs ih =>
    intro c hc
    rw [sortByPrice] at hc
    cases hsx : sortByPrice xs with
    | nil =>
      have hxs : xs = [] := by
        have hl := sortByPrice_length xs
        rw [hsx] at hl
        exact List.length_eq_zero.mp hl.symm
      rw [hsx] at hc
      rw [insertByPrice] at hc
      rw [List.head?_cons] at hc
      injection hc with hc
      subst hc
      subst hxs
      refine ⟨List.mem_singleton.mpr rfl, ?_, ?_⟩
      · intro p hp
        rw [List.mem_singleton.mp hp]
      · exact List.find?_cons_of_pos [] (by simp)
    | cons y ys =>
      have hy := ih y (by rw [hsx, List.head?_cons])
      rw [hsx] at hc
      rw [insertByPrice] at hc
      split at hc
      · -- y.2 < x.2 : the sorted head of the tail wins
        rename_i hlt
        rw [List.head?_cons] at hc
        injection hc with hc
        subst hc
        refine ⟨List.mem_cons_of_mem x hy.1, ?_, ?_⟩
        · intro p hp
          rcases List.mem_cons.mp hp with hp | hp
          · rw [hp]
            exact le_of_lt hlt
          · exact hy.2.1 p hp
        · rw [List.find?_cons_of_neg _ ?hx]
          · exact hy.2.2
          case hx =>
            simp only [decide_eq_true_eq]
            intro hxy
            rw [hxy] at hlt
            exact lt_irrefl _ hlt
      · -- x.2 ≤ y.2 : the new element goes first (tie kept stable)
        rename_i hge
        rw [List.head?_cons] at hc
        injection hc with hc
        subst hc
        have hxley : x.2 ≤ y.2 := le_of_not_lt hge
        refine ⟨List.mem_cons_self _ _, ?_, ?_⟩
        · intro p hp
          rcases List.mem_cons.mp hp with hp | hp
          · rw [hp]
          · exact le_trans hxley (hy.2.1 p hp)
        · exact List.find?_cons_of_pos _ (by simp)

/-- Every price produced by the resolver comes from a submission's cents,
hence is one of the two cells. -/
lemma resolveSlot_shape (slot : Slot) (mode : Mode) (asOf : ℕ) (c : Cell)
    (h : resolveSlot slot mode asOf = some c) :
    (∃ r, slot.regular = some r ∧ c = regularCell r) ∨
    (∃ sl, slot.sale = some sl ∧ c = saleCell sl) := by
  cases mode with
  | regular =>
    cases hr : slot.regular with
    | none => rw [resolveSlot] at h; simp [hr] at h
    | some r =>
      rw [resolveSlot] at h
      simp only [hr, Option.map_some'] at h
      injection h with h
      exact Or.inl ⟨r, rfl, h.symm⟩
  | sale =>
    cases hs : slot.sale with
    | none => rw [resolveSlot] at h; simp [hs] at h
    | some sl =>
      rw [resolveSlot] at h
      simp only [hs] at h
      split at h
      · injection h with h
        exact Or.inr ⟨sl, rfl, h.symm⟩
      · exact Option.noConfusion h
  | best =>
    cases hs : slot.sale with
    | none =>
      cases hr : slot.regular with
      | none => rw [resolveSlot] at h; simp [hs, hr] at h
      | some r =>
        rw [resolveSlot] at h
        simp only [hs, hr] at h
        injection h with h
        exact Or.inl ⟨r, rfl, h.symm⟩
    | some sl =>
      cases hr : slot.regular with
      | none =>
        rw [resolveSlot] at h
        simp only [hs, hr] at h
        split at h
        · injection h with h
          exact Or.inr ⟨sl, rfl, h.symm⟩
        · exact Option.noConfusion h
      | some r =>
        rw [resolveSlot] at h
        simp only [hs, hr] at h
        split at h
        · split at h
          · injection h with h
            exact Or.inr ⟨sl, rfl, h.symm⟩
          · injection h with h
            exact Or.inl ⟨r, rfl, h.symm⟩
        · injection h with h
          exact Or.inl ⟨r, rfl, h.symm⟩

/-- Displayed prices are nonnegative (cents are a natural number). -/
lemma centsToPrice_nonneg (n : ℕ) : 0 ≤ centsToPrice n := by
  unfold centsToPrice
  positivity

/-- Every collected price of a ranking pass is nonnegative. -/
lemma priceVals_nonneg (subs : List Submission) (mode : Mode) (asOf : ℕ)
    (stores : List Store) (v : String) :
    ∀ p ∈ priceVals subs mode asOf stores v, 0 ≤ p.2 := by
  intro p hp
  unfold priceVals at hp
  rw [List.mem_filterMap] at hp
  obtain ⟨st, hst, hmap⟩ := hp
  cases hc : getDisplayPrice subs mode asOf v st.id with
  | none => rw [hc] at hmap; exact Option.noConfusion hmap
  | some c =>
    rw [hc] at hmap
    simp only [Option.map_some'] at hmap
    injection hmap with hmap
    unfold getDisplayPrice at hc
    rw [← hmap]
    rcases resolveSlot_shape _ _ _ _ hc with ⟨r, -, hcell⟩ | ⟨sl, -, hcell⟩ <;>
      rw [hcell] <;> exact centsToPrice_nonneg _

/-- `round1` maps nonnegative inputs to nonnegative outputs. -/
lemma round1_nonneg (x : ℚ) (hx : 0 ≤ x) : 0 ≤ round1 x := by
  unfold round1
  have h1 : (0 : ℚ) ≤ x * 10 + 1 / 2 := by
    have := mul_nonneg hx (by norm_num : (0 : ℚ) ≤ 10)
    linarith
  have h2 : (0 : ℤ) ≤ ⌊x * 10 + 1 / 2⌋ := Int.floor_nonneg.mpr h1
  have h3 : (0 : ℚ) ≤ ((⌊x * 10 + 1 / 2⌋ : ℤ) : ℚ) := by exact_mod_cast h2
  exact div_nonneg h3 (by norm_num)

/-- `round1 0 = 0`. -/
lemma round1_zero : round1 0 = 0 := by
  norm_num [round1]

/-- C5.  Savings percentage: with at least two collected prices, the
ranking returns the sorted head as cheapest and
`savePct = round1 ((second - lowest) / second * 100)`; the head's price
is minimal over all collected prices, `savePct` is nonnegative, and a tie
between the two lowest prices yields `savePct = 0`. -/
theorem c5_savings (subs : List Submission) (mode : Mode) (asOf : ℕ)
    (stores : List Store) (v : String) (c s2 : String × ℚ) (rest : List (String × ℚ))
    (hsort : sortByPrice (priceVals subs mode asOf stores v) = c :: s2 :: rest) :
    getCheapestInfo subs mode asOf stores v =
      ⟨some c.1, some (round1 ((s2.2 - c.2) / s2.2 * 100))⟩ ∧
    (∀ p ∈ priceVals subs mode asOf stores v, c.2 ≤ p.2) ∧
    0 ≤ round1 ((s2.2 - c.2) / s2.2 * 100) ∧
    (c.2 = s2.2 → round1 ((s2.2 - c.2) / s2.2 * 100) = 0) := by
  have hhead : (sortByPrice (priceVals subs mode asOf stores v)).head? = some c := by
    rw [hsort]
    rfl
  obtain ⟨hmem, hmin, hfind⟩ := sortByPrice_head_spec _ _ hhead
  have hs2mem : s2 ∈ priceVals subs mode asOf stores v := by
    have : s2 ∈ sortByPrice (priceVals subs mode asOf stores v) := by
      rw [hsort]
      exact List.mem_cons_of_mem _ (List.mem_cons_self _ _)
    exact (mem_sortByPrice _ _).mp this
  have hcs2 : c.2 ≤ s2.2 := hmin s2 hs2mem
  have hs2nonneg : 0 ≤ s2.2 := priceVals_nonneg subs mode asOf stores v s2 hs2mem
  have hfrac : 0 ≤ (s2.2 - c.2) / s2.2 * 100 := by
    apply mul_nonneg _ (by norm_num)
    exact div_nonneg (by linarith) hs2nonneg
  refine ⟨?_, hmin, round1_nonneg _ hfrac, ?_⟩
  · unfold getCheapestInfo
    rw [hsort]
  · intro he
    rw [he, sub_self, zero_div, zero_mul]
    exact round1_zero

/-- C6.  Ranking tie-break: the reported cheapest store is the sorted
head, whose price is minimal over the collected values, and which is the
FIRST value of minimal price in store-iteration order (stable sort). -/
theorem c6_tie_break (subs : List Submission) (mode : Mode) (asOf : ℕ)
    (stores : List Store) (v : String) (c : String × ℚ)
    (hc : (sortByPrice (priceVals subs mode asOf stores v)).head? = some c) :
    (getCheapestInfo subs mode asOf stores v).cheapestStoreId = some c.1 ∧
    c ∈ priceVals subs mode asOf stores v ∧
    (∀ p ∈ priceVals subs mode asOf stores v, c.2 ≤ p.2) ∧
    (priceVals subs mode asOf stores v).find? (fun p => decide (p.2 = c.2)) = some c := by
  obtain ⟨hmem, hmin, hfind⟩ := sortByPrice_head_spec _ _ hc
  refine ⟨?_, hmem, hmin, hfind⟩
  cases hsort : sortByPrice (priceVals subs mode asOf stores v) with
  | nil => rw [hsort] at hc; exact absurd hc (by simp)
  | cons a t =>
    rw [hsort] at hc
    rw [List.head?_cons] at hc
    injection hc with hc
    subst hc
    cases t with
    | nil =>
      unfold getCheapestInfo
      rw [hsort]
    | cons b t2 =>
      unfold getCheapestInfo
      rw [hsort]

/-- C7.  Ranking degenerate cases: the value list is empty exactly when
no store has a display price, an empty value list ranks to
(null, null), and a singleton value list ranks its only store as cheapest
with a null savings percentage. -/
theorem c7_degenerate (subs : List Submission) (mode : Mode) (asOf : ℕ)
    (stores : List Store) (v : String) :
    (priceVals subs mode asOf stores v = [] ↔
      ∀ st ∈ stores, getDisplayPrice subs mode asOf v st.id = none) ∧
    (priceVals subs mode asOf stores v = [] →
      getCheapestInfo subs mode asOf stores v = ⟨none, none⟩) ∧
    (∀ p, priceVals subs mode asOf stores v = [p] →
      getCheapestInfo subs mode asOf stores v = ⟨some p.1, none⟩) := by
  refine ⟨?_, ?_, ?_⟩
  · unfold priceVals
    rw [List.filterMap_eq_nil_iff]
    constructor
    · intro h st hst
      exact Option.map_eq_none'.mp (h st hst)
    · intro h st hst
      rw [h st hst]
      rfl
  · intro h
    unfold getCheapestInfo
    rw [h]
    rfl
  · intro p h
    unfold getCheapestInfo
    rw [h]
    rfl

/-- C10.  The visibility toggle and the ranking agree: some store shows a
price for the variant iff the ranking reports a cheapest store. -/
theorem c10_visibility_consistency (subs : List Submission) (mode : Mode) (asOf : ℕ)
    (stores : List Store) (v : String) :
    hasAnyPrice subs mode asOf stores v = true ↔
      (getCheapestInfo subs mode asOf stores v).cheapestStoreId ≠ none := by
  have h1 : hasAnyPrice subs mode asOf stores v = true ↔
      priceVals subs mode asOf stores v ≠ [] := by
    unfold hasAnyPrice priceVals
    rw [List.any_eq_true]
    constructor
    · rintro ⟨st, hst, hsome⟩ hnil
      rw [List.filterMap_eq_nil_iff] at hnil
      have hn := Option.map_eq_none'.mp (hnil st hst)
      rw [hn] at hsome
      exact Bool.noConfusion hsome
    · intro hne
      by_contra hall
      push_neg at hall
      apply hne
      rw [List.filterMap_eq_nil_iff]
      intro st hst
      have hx := hall st hst
      rw [Option.map_eq_none']
      cases hd : getDisplayPrice subs mode asOf v st.id with
      | none => rfl
      | some cc =>
        rw [hd] at hx
        exact absurd rfl hx
  have h2 : (getCheapestInfo subs mode asOf stores v).cheapestStoreId = none ↔
      priceVals subs mode asOf stores v = [] := by
    constructor
    · intro hnone
      by_contra hne
      cases hsort : sortByPrice (priceVals subs mode asOf stores v) with
      | nil =>
        apply hne
        have hl := sortByPrice_length (priceVals subs mode asOf stores v)
        rw [hsort] at hl
        exact List.length_eq_zero.mp hl.symm
      | cons a t =>
        unfold getCheapestInfo at hnone
        rw [hsort] at hnone
        cases t with
        | nil => exact Option.noConfusion hnone
        | cons b t2 => exact Option.noConfusion hnone
    · intro hnil
      unfold getCheapestInfo
      rw [hnil]
      rfl
  rw [h1]
  constructor
  · intro hne hnone
    exact hne (h2.mp hnone)
  · intro hne hnil
    exact hne (h2.mpr hnil)

/-! ### Totality and degradation (C8) -/

/-- A pass over submissions none of which match the key leaves the slot
untouched. -/
lemma latestFrom_of_no_match (v st : String) :
    ∀ (subs : List Submission) (slot : Slot),
      (∀ s ∈ subs, ¬(s.variant_id = v ∧ s.store_id = st)) →
      latestFrom v st slot subs = slot := by
  intro subs
  induction subs with
  | nil => intro slot _; rfl
  | cons s rest ih =>
    intro slot h
    rw [latestFrom_cons]
    rw [if_neg ?hg]
    · exact ih slot fun x hx => h x (List.mem_cons_of_mem s hx)
    case hg =>
      rintro ⟨-, h2, h3⟩
      exact h s (List.mem_cons_self s rest) ⟨h2, h3⟩

/-- The empty slot resolves to the empty result in every mode. -/
lemma resolveSlot_empty (mode : Mode) (asOf : ℕ) :
    resolveSlot ⟨none, none⟩ mode asOf = none := by
  cases mode <;> rfl

/-- Splitting the indexing pass over an appended feed. -/
lemma latestFrom_append (v st : String) (slot : Slot) (l1 l2 : List Submission) :
    latestFrom v st slot (l1 ++ l2) = latestFrom v st (latestFrom v st slot l1) l2 := by
  unfold latestFrom
  exact List.foldl_append _ _ _ _

/-- C8.  Degrade to no data, never fail: a (variant, store) pair no
submission refers to — dangling identifiers included — resolves to the
empty result in every mode, and a submission with an empty `variant_id`
is skipped by the indexer: deleting it from the feed leaves every index
entry unchanged. -/
theorem c8_total_degrade (subs : List Submission) (mode : Mode) (asOf : ℕ)
    (v st : String) :
    ((∀ s ∈ subs, ¬(s.variant_id = v ∧ s.store_id = st)) →
      getDisplayPrice subs mode asOf v st = none) ∧
    (∀ (bad : Submission) (pre post : List Submission), bad.variant_id = "" →
      latest (pre ++ bad :: post) v st = latest (pre ++ post) v st) := by
  constructor
  · intro h
    unfold getDisplayPrice latest
    rw [latestFrom_of_no_match v st subs ⟨none, none⟩ h]
    exact resolveSlot_empty mode asOf
  · intro bad pre post hbad
    unfold latest
    rw [latestFrom_append, latestFrom_append, latestFrom_cons]
    rw [if_neg ?hg]
    case hg =>
      rintro ⟨h1, -, -⟩
      exact h1 hbad

/-! ### Search filter (C9) -/

/-- The executable substring test decides list-infix containment. -/
lemma strContains_iff (hay needle : String) :
    strContains hay needle = true ↔ List.IsInfix needle.data hay.data := by
  unfold strContains
  rw [List.any_eq_true]
  constructor
  · rintro ⟨i, hi, hpre⟩
    rw [List.isPrefixOf_iff_prefix] at hpre
    obtain ⟨t, ht⟩ := hpre
    refine ⟨hay.data.take i, t, ?_⟩
    rw [List.append_assoc, ht, List.take_append_drop]
  · rintro ⟨s, t, hst⟩
    refine ⟨s.length, ?_, ?_⟩
    · rw [List.mem_range]
      have hlen : s.length ≤ hay.data.length := by
        rw [← hst, List.length_append, List.length_append]
        omega
      omega
    · rw [List.isPrefixOf_iff_prefix]
      refine ⟨t, ?_⟩
      rw [← hst, List.append_assoc, List.drop_left]

/-- C9.  Search filter: a variant matches a query iff the lower-cased,
trimmed query is a substring (list infix) of the lower-cased label
`"{brand} {product} {sizeValue}{sizeUnit} {flavour}"`; a query that trims
to empty matches every variant; and the row filter is exactly the
per-variant match applied pointwise. -/
theorem c9_search_filter (query : String) (v : Variant) (variants : List Variant) :
    (matchesQuery query v = true ↔
      List.IsInfix (lowerString (trimString query)).data (variantSearchLabel v).data) ∧
    (trimString query = "" → matchesQuery query v = true) ∧
    filteredVariants query variants = variants.filter (fun u => matchesQuery query u) := by
  refine ⟨?_, ?_, ?_⟩
  · by_cases hq : lowerString (trimString query) = ""
    · unfold matchesQuery
      rw [if_pos hq]
      constructor
      · intro _
        rw [hq]
        exact ⟨[], (variantSearchLabel v).data, by simp⟩
      · intro _
        rfl
    · unfold matchesQuery
      rw [if_neg hq]
      exact strContains_iff _ _
  · intro h
    unfold matchesQuery
    rw [h]
    rfl
  · by_cases hq : lowerString (trimString query) = ""
    · unfold filteredVariants
      rw [if_pos hq]
      symm
      rw [List.filter_eq_self]
      intro u _
      unfold matchesQuery
      rw [if_pos hq]
    · unfold filteredVariants
      rw [if_neg hq]
      apply List.filter_congr
      intro u _
      unfold matchesQuery
      rw [if_neg hq]

/-! ### Closed instances of the theorems on concrete data -/

/-- Concrete store list used by the closed instances. -/
def wStoreA : Store := ⟨"A", "Store A", 0⟩

/-- Second concrete store. -/
def wStoreB : Store := ⟨"B", "Store B", 1⟩

/-- Third concrete store. -/
def wStoreC : Store := ⟨"C", "Store C", 2⟩

/-- The three stores in sort order. -/
def wStores : List Store := [wStoreA, wStoreB, wStoreC]

/-- Newest regular submission of a three-submission feed. -/
def wReg3 : Submission := ⟨"r3", "A", "v1", 900, PriceType.regular, none, 3⟩

/-- Middle regular submission. -/
def wReg2 : Submission := ⟨"r2", "A", "v1", 800, PriceType.regular, none, 2⟩

/-- Oldest regular submission. -/
def wReg1 : Submission := ⟨"r1", "A", "v1", 700, PriceType.regular, none, 1⟩

/-- A newest-first feed with three same-pair regular submissions. -/
def wFeed : List Submission := [wReg3, wReg2, wReg1]

/-- A sale submission ending on day 1. -/
def wSaleD1 : Submission := ⟨"s1", "A", "v1", 500, PriceType.sale, some 1, 10⟩

/-- A regular submission priced 10.00. -/
def wRegSub : Submission := ⟨"r", "A", "v1", 1000, PriceType.regular, none, 5⟩

/-- An open-ended sale submission priced 10.00 (exact tie with
`wRegSub`). -/
def wSaleSub : Submission := ⟨"s", "A", "v1", 1000, PriceType.sale, none, 6⟩

/-- A slot holding the tied regular and sale submissions. -/
def wSlot : Slot := ⟨some wRegSub, some wSaleSub⟩

/-- Store A at 8.00 for variant v2. -/
def wR8 : Submission := ⟨"a8", "A", "v2", 800, PriceType.regular, none, 30⟩

/-- Store B at 10.00 for variant v2. -/
def wR10 : Submission := ⟨"b10", "B", "v2", 1000, PriceType.regular, none, 20⟩

/-- Store C at 12.00 for variant v2. -/
def wR12 : Submission := ⟨"c12", "C", "v2", 1200, PriceType.regular, none, 10⟩

/-- Feed with the three prices 8.00 / 10.00 / 12.00. -/
def wFeed2 : List Submission := [wR8, wR10, wR12]

/-- Store A at 5.00 for variant v3 (tie). -/
def wT5a : Submission := ⟨"t1", "A", "v3", 500, PriceType.regular, none, 2⟩

/-- Store B at 5.00 for variant v3 (tie). -/
def wT5b : Submission := ⟨"t2", "B", "v3", 500, PriceType.regular, none, 1⟩

/-- Feed with two stores tied at 5.00. -/
def wFeed3 : List Submission := [wT5a, wT5b]

/-- A single submission at store A for variant v4. -/
def wOnlyA : Submission := ⟨"o1", "A", "v4", 500, PriceType.regular, none, 1⟩

/-- A malformed submission with an empty `variant_id`. -/
def wBad : Submission := ⟨"bad", "A", "", 100, PriceType.regular, none, 9⟩

/-- The worked example variant of the spec. -/
def wKedem : Variant := ⟨"v", "Grape Juice", "Kedem", some "1.5", some "L", some "Concord"⟩

/-- C1 instantiated: on the concrete newest-first feed the regular slot
is the first matching submission, and it dominates the older one by
`created_at`. -/
theorem c1_latest_wins_witness :
    (latest wFeed "v1" "A").regular =
      (wFeed.filter (keyMatch "v1" "A" PriceType.regular)).head? ∧
    wReg2.created_at ≤ wReg3.created_at := by
  have h := c1_latest_wins wFeed "v1" "A" (by decide)
  exact ⟨h.1, h.2.2.1 wReg3 (by decide) wReg2 (by decide)⟩

/-- C2 instantiated: the day-1 sale is active during day 1 and inactive
on day 2. -/
theorem c2_sale_validity_witness :
    isSaleStillValid (msPerDay + 1) (some wSaleD1) = true ∧
    isSaleStillValid (2 * msPerDay) (some wSaleD1) = false := by
  constructor
  · exact ((c2_sale_validity (msPerDay + 1) wSaleD1).2.2 1 rfl).2.1 (by decide)
  · exact ((c2_sale_validity (2 * msPerDay) wSaleD1).2.2 1 rfl).2.2 (by decide)

/-- C3 instantiated: with regular = sale = 10.00 and the sale active,
best mode returns the sale cell (ties favor the sale). -/
theorem c3_best_mode_witness :
    resolveSlot wSlot Mode.best 0 = some (saleCell wSaleSub) := by
  have h := (c3_best_mode wSlot 0).1 wRegSub wSaleSub rfl rfl (by decide)
  rw [h, if_pos ?hle]
  case hle => norm_num [wSaleSub, wRegSub, centsToPrice]

/-- C4 instantiated: regular mode returns the regular cell and sale mode
the sale cell, on the same slot. -/
theorem c4_mode_independence_witness :
    resolveSlot wSlot Mode.regular 0 = some (regularCell wRegSub) ∧
    resolveSlot wSlot Mode.sale 0 = some (saleCell wSaleSub) := by
  constructor
  · rw [(c4_mode_independence wSlot 0).1]
    rfl
  · exact (c4_mode_independence wSlot 0).2.2.1 wSaleSub rfl (by decide)

/-- C5 instantiated: prices 8.00 / 10.00 / 12.00 rank store A cheapest
with savings of 20.0 percent. -/
theorem c5_savings_witness :
    getCheapestInfo wFeed2 Mode.best 0 wStores "v2" =
      ⟨some "A", some 20⟩ := by
  have hsort : sortByPrice (priceVals wFeed2 Mode.best 0 wStores "v2") =
      [("A", 8), ("B", 10), ("C", 12)] := by
    norm_num [priceVals, getDisplayPrice, latest, latestFrom, stepSlot, resolveSlot,
      isSaleStillValid, centsToPrice, sortByPrice, insertByPrice, regularCell, saleCell,
      wFeed2, wR8, wR10, wR12, wStores, wStoreA, wStoreB, wStoreC]
  have h := (c5_savings wFeed2 Mode.best 0 wStores "v2" ("A", 8) ("B", 10) [("C", 12)] hsort).1
  rw [h]
  simp only [RankResult.mk.injEq, Option.some.injEq]
  norm_num [round1]

/-- C6 instantiated: stores A and B tied at 5.00 rank store A (first in
store order) cheapest. -/
theorem c6_tie_break_witness :
    (getCheapestInfo wFeed3 Mode.best 0 wStores "v3").cheapestStoreId = some "A" := by
  have hc : (sortByPrice (priceVals wFeed3 Mode.best 0 wStores "v3")).head? =
      some ("A", 5) := by
    norm_num [priceVals, getDisplayPrice, latest, latestFrom, stepSlot, resolveSlot,
      isSaleStillValid, centsToPrice, sortByPrice, insertByPrice, regularCell, saleCell,
      wFeed3, wT5a, wT5b, wStores, wStoreA, wStoreB, wStoreC]
  exact (c6_tie_break wFeed3 Mode.best 0 wStores "v3" ("A", 5) hc).1

/-- C7 instantiated: an empty feed ranks to (null, null) and a
single-store feed ranks that store with null savings. -/
theorem c7_degenerate_witness :
    getCheapestInfo [] Mode.best 0 wStores "v9" = ⟨none, none⟩ ∧
    getCheapestInfo [wOnlyA] Mode.best 0 wStores "v4" = ⟨some "A", none⟩ := by
  constructor
  · exact (c7_degenerate [] Mode.best 0 wStores "v9").2.1 rfl
  · refine (c7_degenerate [wOnlyA] Mode.best 0 wStores "v4").2.2 ("A", 5) ?_
    have hA : latest [wOnlyA] "v4" "A" = ⟨some wOnlyA, none⟩ := by decide
    have hB : latest [wOnlyA] "v4" "B" = ⟨none, none⟩ := by decide
    have hC : latest [wOnlyA] "v4" "C" = ⟨none, none⟩ := by decide
    unfold priceVals getDisplayPrice
    simp only [wStores, wStoreA, wStoreB, wStoreC, List.filterMap_cons, List.filterMap_nil]
    simp only [hA, hB, hC, resolveSlot, isSaleStillValid]
    simp only [wOnlyA]
    norm_num [centsToPrice, regularCell]

/-- C8 instantiated: a dangling variant id resolves to the empty result,
and dropping an empty-id submission leaves the index entry unchanged. -/
theorem c8_total_degrade_witness :
    getDisplayPrice wFeed2 Mode.best 0 "ghost" "A" = none ∧
    latest ([wR8] ++ wBad :: [wR10]) "v2" "A" = latest ([wR8] ++ [wR10]) "v2" "A" := by
  constructor
  · exact (c8_total_degrade wFeed2 Mode.best 0 "ghost" "A").1 (by decide)
  · exact (c8_total_degrade wFeed2 Mode.best 0 "v2" "A").2 wBad [wR8] [wR10] rfl

/-- C9 instantiated: a whitespace-only query matches the example variant,
and the query "CONCORD" normalizes to a substring of its label. -/
theorem c9_search_filter_witness :
    matchesQuery "   " wKedem = true ∧
    List.IsInfix (lowerString (trimString "CONCORD")).data (variantSearchLabel wKedem).data := by
  constructor
  · exact (c9_search_filter "   " wKedem []).2.1 (by decide)
  · exact (c9_search_filter "CONCORD" wKedem []).1.mp (by decide)

/-- C10 instantiated on the 8/10/12 data. -/
theorem c10_visibility_consistency_witness :
    hasAnyPrice wFeed2 Mode.best 0 wStores "v2" = true ↔
      (getCheapestInfo wFeed2 Mode.best 0 wStores "v2").cheapestStoreId ≠ none :=
  c10_visibility_consistency wFeed2 Mode.best 0 wStores "v2"

end KosherPrices
